import Mathlib

/-
Verification development for the PhotoClassify repository.

The embedding models, over `List Char` strings and explicit in-memory state:
  - photoclassify/photopath.py : PhotoPath (from_path, name, next),
    including Python pathlib's stem/suffix split and the `_x` hex counter
    encoding `"{stem}_x{counter:>02s}{suffix}"` with `counter = hex(n)[2:]`;
  - photoclassify/diff.py : compare_stream, compare_hash (with a read
    counter), find_candidates, find_twins, find_twins_parallel, with Python
    dicts as insertion-ordered association lists and raised exceptions as
    `Except` values;
  - photoclassify/copies.py : _copy_file_task over an explicit destination
    directory state;
  - photoclassify/catalog.py : Catalog.find_duplicates / Catalog.find_idle
    over the rows of the Hash table.
-/

set_option maxRecDepth 8000

/-- Decidable equality of `Except` values, used to state results about the
twin finders (absent from core). -/
instance {ε β : Type} [DecidableEq ε] [DecidableEq β] : DecidableEq (Except ε β) := fun a b =>
  match a, b with
  | Except.error x, Except.error y =>
      if h : x = y then isTrue (by rw [h])
      else isFalse (by intro hc; cases hc; exact h rfl)
  | Except.ok x, Except.ok y =>
      if h : x = y then isTrue (by rw [h])
      else isFalse (by intro hc; cases hc; exact h rfl)
  | Except.error _, Except.ok _ => isFalse (by intro hc; cases hc)
  | Except.ok _, Except.error _ => isFalse (by intro hc; cases hc)

/-- Strings are modelled as lists of characters. -/
abbrev Chars := List Char

/-- Byte contents of a file. -/
abbrev Content := List Nat

/-- Python `pathlib`: split a file name at its last dot, provided that dot is
neither the first nor the last character (`i = name.rfind('.')`;
`if 0 < i < len(name) - 1`).  `k` is the distance from the last dot to the end
of the name, computed on the reversed name. -/
def pySplit (name : Chars) : Chars × Chars :=
  let r := name.reverse
  let k := (r.takeWhile (fun c => !(c = '.' : Bool))).length
  if k < r.length ∧ 0 < k ∧ k + 1 < r.length then
    (name.take (name.length - 1 - k), name.drop (name.length - 1 - k))
  else (name, [])

/-- Python `pathlib` `Path(...).stem` of a file name. -/
def pyStem (name : Chars) : Chars := (pySplit name).1

/-- Python `pathlib` `Path(...).suffix` of a file name. -/
def pySuffix (name : Chars) : Chars := (pySplit name).2

/-- The regex character class `[0-9a-f]`, by ASCII code. -/
def isHexDigitPC (c : Char) : Bool :=
  (48 ≤ c.toNat && c.toNat ≤ 57) || (97 ≤ c.toNat && c.toNat ≤ 102)

/-- Value of one `[0-9a-f]` digit, as used by `int(..., 16)`. -/
def hexVal (c : Char) : Nat :=
  if c.toNat ≤ 57 then c.toNat - 48 else c.toNat - 87

/-- The regex search `_x([0-9a-f]{2})$` on a stem: it matches exactly when the
last four characters are `_`, `x` and two lowercase hex digits, and captures
the two digits.  (Filenames with embedded newlines, where `$` can also match
before a trailing newline, are outside this model.) -/
def hexSuffixMatch (stem : Chars) : Option (Char × Char) :=
  match stem.reverse with
  | h2 :: h1 :: x :: u :: _ =>
      if u = '_' ∧ x = 'x' ∧ isHexDigitPC h1 ∧ isHexDigitPC h2 then some (h1, h2)
      else none
  | _ => none

/-- photopath.py `PhotoPath`: decomposition of a path into parent directory,
stem, extension and hex counter. -/
structure PhotoPath where
  parent : Chars
  stem : Chars
  suffix : Chars
  counter : Nat
deriving DecidableEq, Repr

/-- photopath.py `PhotoPath.from_path`: take the pathlib stem; if the regex
`_x([0-9a-f]{2})$` matches, strip the matched token (the source's
`stem.rsplit(hexinc.group(), 1)[0]`; since the match is anchored at the end,
the last occurrence is the final four characters, so this is `take (len-4)`)
and parse the two digits in base 16; otherwise the counter is 0. -/
def PhotoPath.from_path (parent name : Chars) : PhotoPath :=
  let stem0 := pyStem name
  match hexSuffixMatch stem0 with
  | some (h1, h2) =>
      { parent := parent, stem := stem0.take (stem0.length - 4),
        suffix := pySuffix name, counter := 16 * hexVal h1 + hexVal h2 }
  | none =>
      { parent := parent, stem := stem0, suffix := pySuffix name, counter := 0 }

/-- Base-16 digit expansion, recursion bounded by a fuel argument so that it
reduces by kernel computation; `fuel = n` always suffices. -/
def pyHexAux : Nat → Nat → Chars
  | 0, n => [Nat.digitChar n]
  | fuel + 1, n =>
      if n < 16 then [Nat.digitChar n]
      else pyHexAux fuel (n / 16) ++ [Nat.digitChar (n % 16)]

/-- Python `hex(n)[2:]`: lowercase hexadecimal digits of `n`, no padding. -/
def pyHex (n : Nat) : Chars := pyHexAux n n

/-- Python format spec `>02s`: right-align to width 2, filling with `0`. -/
def pad2 (s : Chars) : Chars := List.replicate (2 - s.length) '0' ++ s

/-- photopath.py `PhotoPath.name`:
`"{stem}_x{counter:>02s}{suffix}"` with `counter = hex(self.counter)[2:]`. -/
def PhotoPath.name (p : PhotoPath) : Chars :=
  p.stem ++ ['_', 'x'] ++ pad2 (pyHex p.counter) ++ p.suffix

/-- photopath.py `PhotoPath.next`: same parent, stem and suffix, counter + 1. -/
def PhotoPath.next (p : PhotoPath) : PhotoPath :=
  { p with counter := p.counter + 1 }

example : PhotoPath.from_path [] ("IMG_0001_x02.jpg".data) =
    { parent := [], stem := "IMG_0001".data, suffix := ".jpg".data, counter := 2 } := by
  decide

example : (PhotoPath.from_path [] ("IMG_0001.jpg".data)).name = "IMG_0001_x00.jpg".data := by
  decide

example : ((PhotoPath.from_path [] ("A.jpg".data)).next).name = "A_x01.jpg".data := by
  decide

/-- diff.py `compare_stream`, inner `while` loop: read one chunk of
`chunk_size` bytes from each file, return `False` on the first differing pair
of chunks, `True` once both files are exhausted.  The second component counts
the loop iterations, i.e. how many `f.read(chunk_size)` calls were made on
each file — the source performs no size pre-check, so this is the
instrumentation used to settle whether contents are read. -/
def streamLoopAux (cs : Nat) : Nat → Content → Content → Bool × Nat
  | 0, _, _ => (false, 0)
  | fuel + 1, c1, c2 =>
      if c1.take cs ≠ c2.take cs then (false, 1)
      else if (c1.take cs).isEmpty then (true, 1)
      else
        let r := streamLoopAux cs fuel (c1.drop cs) (c2.drop cs)
        (r.1, r.2 + 1)

/-- The loop of `compare_stream` on the two files' contents.  The fuel
`c1.length + 1` always suffices: each iteration that recurses consumes at
least one byte of `c1`. -/
def streamLoopCount (cs : Nat) (c1 c2 : Content) : Bool × Nat :=
  streamLoopAux cs (c1.length + 1) c1 c2

/-- diff.py `compare_stream`: files that fail to open (`FileNotFoundError`,
`IOError`) are modelled as `none`; the source catches both, prints an error
message and returns `False`.  Existing files run the chunked loop. -/
def compare_stream (file1 file2 : Option Content) (cs : Nat) : Bool :=
  match file1, file2 with
  | some c1, some c2 => (streamLoopCount cs c1 c2).1
  | _, _ => false

/-- Number of chunk reads `compare_stream` performs on each file (0 when an
open fails before the loop starts). -/
def compare_stream_reads (file1 file2 : Option Content) (cs : Nat) : Nat :=
  match file1, file2 with
  | some c1, some c2 => (streamLoopCount cs c1 c2).2
  | _, _ => 0

/-- diff.py `calculate_file_hash`: reads the whole file in 4096-byte chunks
and returns its SHA-256 digest.  The digest is modelled as the content itself
(a collision-free abstraction of the hash). -/
def calculate_file_hash (c : Content) : Content := c

/-- Number of `f.read(4096)` calls `calculate_file_hash` makes: one per full
chunk plus the final empty read — always at least one. -/
def hash_read_calls (c : Content) : Nat := c.length / 4096 + 1

/-- diff.py `compare_hash`: equality of the two files' digests. -/
def compare_hash (c1 c2 : Content) : Bool := calculate_file_hash c1 == calculate_file_hash c2

/-- copies.py `CopyStatus`. -/
inductive CopyStatus
  | SUCCESS
  | EXISTING
  | RENAMED
  | ERROR
deriving DecidableEq, Repr

/-- The exception carried by an `ERROR` outcome of `_copy_file_task`: either
the dedicated `RuntimeError("Too many rename attempts")` or one of the caught
I/O exceptions (`FileNotFoundError`, `PermissionError`, `OSError`). -/
inductive CopyExc
  | renameExhausted
  | ioError
deriving DecidableEq, Repr

/-- copies.py `MAX_RENAME_ALLOWED`. -/
def MAX_RENAME_ALLOWED : Nat := 20

/-- The destination directory, as a mapping from file name to content in
creation order. -/
abbrev DestDir := List (Chars × Content)

/-- `Path.exists` / lookup of a name inside the destination directory. -/
def dirLookup (d : DestDir) (n : Chars) : Option Content :=
  (d.find? fun e => decide (e.1 = n)).map Prod.snd

/-- `shutil.copy2` into the destination directory: overwrite an existing
entry, otherwise append a new one. -/
def dirWrite (d : DestDir) (n : Chars) (c : Content) : DestDir :=
  if d.any fun e => decide (e.1 = n) then
    d.map fun e => if e.1 = n then (e.1, c) else e
  else d ++ [(n, c)]

/-- copies.py `_copy_file_task`, rename loop: starting from the colliding
destination name, `for _ in range(MAX_RENAME_ALLOWED)` recompute
`PhotoPath.from_path(destin_fpath).next.path` and copy there as soon as the
name is free; when the bound is exhausted return `ERROR` with
`RuntimeError("Too many rename attempts")`.  The fuel argument is the number
of remaining loop iterations; the directory is threaded as explicit state. -/
def renameLoop (originContent : Content) (d : DestDir) : Chars → Nat →
    CopyStatus × Option Chars × Option CopyExc × DestDir
  | _, 0 => (CopyStatus.ERROR, none, some CopyExc.renameExhausted, d)
  | fp, fuel + 1 =>
      let fp' := ((PhotoPath.from_path [] fp).next).name
      if (dirLookup d fp').isSome then renameLoop originContent d fp' fuel
      else (CopyStatus.RENAMED, some fp', none, dirWrite d fp' originContent)

/-- copies.py `_copy_file_task` over an explicit destination-directory state:
copy verbatim when the bare name is free, return `EXISTING` when the existing
file has identical content (via `compare_stream`), otherwise run the rename
loop.  The result is `(status, destination name, exception, directory after
the call)`; the source also returns `origin_fpath`, which is constant and
omitted here.  File names stand for the paths inside the single target
directory. -/
def copy_file_task (originName : Chars) (originContent : Content) (d : DestDir) :
    CopyStatus × Option Chars × Option CopyExc × DestDir :=
  let destin := originName
  if ¬ (dirLookup d destin).isSome then
    (CopyStatus.SUCCESS, some destin, none, dirWrite d destin originContent)
  else if compare_stream (some originContent) (dirLookup d destin) 8192 then
    (CopyStatus.EXISTING, some destin, none, d)
  else renameLoop originContent d destin MAX_RENAME_ALLOWED

/-- The sequence of names probed by the rename loop: `renameChain n k` is the
destination name after `k` applications of `from_path ∘ next ∘ name`. -/
def renameChain (n : Chars) : Nat → Chars
  | 0 => n
  | k + 1 => ((PhotoPath.from_path [] (renameChain n k)).next).name

section Diff

variable {α : Type} [DecidableEq α]

/-- A Python exception escaping `find_twins` / `find_twins_parallel`: the
`KeyError` from `candidates[p1]`, or an exception raised by the comparator
and re-raised by `future.result()`. -/
inductive PyErr
  | keyError
  | compareError
deriving DecidableEq, Repr

/-- Python `dict` as an insertion-ordered association list: overwrite the
value in place when the key exists, otherwise append the pair. -/
def dinsert (d : List (α × List α)) (k : α) (v : List α) : List (α × List α) :=
  if d.any fun e => decide (e.1 = k) then
    d.map fun e => if e.1 = k then (e.1, v) else e
  else d ++ [(k, v)]

/-- Python `defaultdict(list)`: `d[k].append(v)` — append to the existing
list in place, or create a new singleton entry at the end. -/
def dappend (d : List (α × List α)) (k : α) (v : α) : List (α × List α) :=
  if d.any fun e => decide (e.1 = k) then
    d.map fun e => if e.1 = k then (e.1, e.2 ++ [v]) else e
  else d ++ [(k, [v])]

/-- Lookup `d[k]` as an `Option` (a missing key raises `KeyError` at use
sites, modelled there). -/
def dlookup (d : List (α × List α)) (k : α) : Option (List α) :=
  (d.find? fun e => decide (e.1 = k)).map Prod.snd

/-- The keys of a Python dict, in insertion order (what `for k in d` yields). -/
def dkeys (d : List (α × List α)) : List α := d.map Prod.fst

/-- Inner loop of `find_candidates` for one origin path `p1`: scan the
destination paths and append every one for which `all(fun(orig, dest) for fun
in funs)` holds (a short-circuiting AND over the filter chain). -/
def candLoop (funs : List (α → α → Bool)) (p1 : α) (paths2 : List α)
    (acc : List (α × List α)) : List (α × List α) :=
  paths2.foldl
    (fun a2 p2 => if funs.all fun f => f p1 p2 then dappend a2 p1 p2 else a2)
    acc

/-- diff.py `find_candidates`: for every origin path, append every destination
path for which all the filter predicates hold.  The source also builds a
name-keyed index `files_dest` of the destination paths, but never uses it, so
the (dead) index is omitted from the model. -/
def find_candidates (paths1 paths2 : List α) (funs : List (α → α → Bool)) :
    List (α × List α) :=
  paths1.foldl (fun acc p1 => candLoop funs p1 paths2 acc) []

/-- The destination paths that pass every filter against origin `p1`, in
destination enumeration order. -/
def candEntry (funs : List (α → α → Bool)) (p1 : α) (paths2 : List α) : List α :=
  paths2.filter fun p2 => funs.all fun f => f p1 p2

/-- The candidate mapping both twin finders build: `find_candidates` with the
module-level `FUN_FILTER` chain when a filter argument was passed, else
`{p1: paths2 for p1 in paths1}`.  The module-level `FUN_FILTER` is the `FF`
parameter; `useFilter` is whether `fun_filter is not None`. -/
def candidatesFor (FF : List (α → α → Bool)) (paths1 paths2 : List α)
    (useFilter : Bool) : List (α × List α) :=
  if useFilter then find_candidates paths1 paths2 FF
  else paths1.foldl (fun a p1 => dinsert a p1 paths2) []

/-- Inner loop of the sequential `find_twins`: compare `p1` with each element
of `ckeys`, appending confirmed pairs; a comparator exception propagates. -/
def twinLoop (cmp : α → α → Except Unit Bool) (p1 : α) :
    List α → List (α × List α) → Except PyErr (List (α × List α))
  | [], acc => Except.ok acc
  | p2 :: rest, acc =>
      match cmp p1 p2 with
      | Except.error _ => Except.error PyErr.compareError
      | Except.ok b => twinLoop cmp p1 rest (if b then dappend acc p1 p2 else acc)

/-- Outer loop of the sequential `find_twins` over `paths1`. -/
def twinOuter (cmp : α → α → Except Unit Bool) (ckeys : List α) :
    List α → List (α × List α) → Except PyErr (List (α × List α))
  | [], acc => Except.ok acc
  | p1 :: rest, acc =>
      match twinLoop cmp p1 ckeys acc with
      | Except.error e => Except.error e
      | Except.ok acc' => twinOuter cmp ckeys rest acc'

/-- diff.py `find_twins` (sequential): build the candidate mapping, then
`for p1 in paths1: for p2 in candidates: ...` — note the source iterates over
the `candidates` dict itself, i.e. over its KEYS, not over `candidates[p1]`. -/
def find_twins (FF : List (α → α → Bool)) (paths1 paths2 : List α)
    (useFilter : Bool) (cmp : α → α → Except Unit Bool) :
    Except PyErr (List (α × List α)) :=
  let candidates := candidatesFor FF paths1 paths2 useFilter
  twinOuter cmp (dkeys candidates) paths1 []

/-- The futures dict comprehension of `find_twins_parallel`:
`{submit(cmp, p1, p2): (p1, p2) for p1 in paths1 for p2 in candidates[p1]}`.
`candidates[p1]` raises `KeyError` when `p1` has no entry, aborting the
comprehension. -/
def buildPairs (cands : List (α × List α)) : List α → Except PyErr (List (α × α))
  | [] => Except.ok []
  | p1 :: rest =>
      match dlookup cands p1 with
      | none => Except.error PyErr.keyError
      | some l =>
          match buildPairs cands rest with
          | Except.error e => Except.error e
          | Except.ok ps => Except.ok (l.map (fun p2 => (p1, p2)) ++ ps)

/-- Result-gathering loop of `find_twins_parallel`: `future.result()` either
re-raises the comparator's exception — aborting the whole call — or yields the
boolean, appending the pair on `True`.  Completion order is unspecified in the
source; the model gathers in submission order (the claims under study treat
`TwinSet` contents as order-independent). -/
def gatherPar (cmp : α → α → Except Unit Bool) :
    List (α × α) → List (α × List α) → Except PyErr (List (α × List α))
  | [], acc => Except.ok acc
  | (p1, p2) :: rest, acc =>
      match cmp p1 p2 with
      | Except.error _ => Except.error PyErr.compareError
      | Except.ok b => gatherPar cmp rest (if b then dappend acc p1 p2 else acc)

/-- diff.py `find_twins_parallel`: build the candidate mapping, submit one
unit per `(p1, p2)` pair (raising `KeyError` on a missing key), then gather
the results. -/
def find_twins_parallel (FF : List (α → α → Bool)) (paths1 paths2 : List α)
    (useFilter : Bool) (cmp : α → α → Except Unit Bool) :
    Except PyErr (List (α × List α)) :=
  let candidates := candidatesFor FF paths1 paths2 useFilter
  match buildPairs candidates paths1 with
  | Except.error e => Except.error e
  | Except.ok pairs => gatherPar cmp pairs []

end Diff

/-- Rows of the catalog's `Hash` table: `(path, hash)` pairs. -/
abbrev HashRecords := List (Chars × Chars)

/-- catalog.py `Catalog._hash_to_path`: invert the rows into an
insertion-ordered `defaultdict(list)` mapping hash to paths. -/
def hash_to_path (rows : HashRecords) : List (Chars × List Chars) :=
  rows.foldl (fun acc r => dappend acc r.2 r.1) []

/-- catalog.py `Catalog.find_duplicates` with `grouped=True`: the groups of
paths sharing a hash, kept only when they have more than one member. -/
def find_duplicates (rows : HashRecords) : List (List Chars) :=
  ((hash_to_path rows).map Prod.snd).filter fun paths => decide (1 < paths.length)

/-- catalog.py `Catalog.find_idle`, grouped form, with the directories marked
`ARCHIVE` as a parameter: keep the hash groups none of whose members has an
archive directory as a string prefix (`os.path.commonprefix((dir, path)) ==
dir`), and record whether `warnings.warn` fired (no archive directories
configured).  `grouped=False` only flattens the same groups. -/
def find_idle (rows : HashRecords) (archive_directories : List Chars) :
    List (List Chars) × Bool :=
  let groups := (hash_to_path rows).map Prod.snd
  let idle := groups.filter fun paths =>
    ! archive_directories.any fun dir => paths.any fun p => dir.isPrefixOf p
  (idle, archive_directories.isEmpty)

/-- Concrete origin file name used by the witnesses and counterexamples. -/
def nameA : Chars := "A.jpg".data

/-- The destination directory of the spec's rename-exhaustion scenario: 20
occupied slots `A.jpg`, `A_x01.jpg`, …, `A_x13.jpg`, every one with content
`[1]`, distinct from the origin content `[0]`. -/
def dir20 : DestDir :=
  (nameA :: (List.range 19).map fun k => renameChain nameA (k + 1)).map
    fun n => (n, ([1] : Content))

/-- `dir20` with the 21st slot `A_x14.jpg` also occupied. -/
def dir21 : DestDir := dir20 ++ [(renameChain nameA 20, ([1] : Content))]

/-- A destination directory holding one file `A.jpg` whose content `[1]`
differs from the origin's `[0]`. -/
def dirC8 : DestDir := [(nameA, ([1] : Content))]

/-- A filter predicate accepting every pair (concrete instance for witnesses,
paths as natural numbers). -/
def oneFilter : Nat → Nat → Bool := fun _ _ => true

/-- A filter predicate accepting equal paths only. -/
def natEqFilter : Nat → Nat → Bool := fun a b => decide (a = b)

/-- A pure comparator confirming equal paths (never raises). -/
def eqCmp : Nat → Nat → Except Unit Bool := fun a b => Except.ok (decide (a = b))

/-- A comparator raising exactly on candidate `2` and confirming all others. -/
def cmpC4 : Nat → Nat → Except Unit Bool :=
  fun _ b => if b = 2 then Except.error () else Except.ok true

/-- A comparator confirming every pair (never raises). -/
def okCmp : Nat → Nat → Except Unit Bool := fun _ _ => Except.ok true

/-- A string whose dots, if any, sit only at the head position: the shape a
pathlib stem has whenever the suffix is empty and the name does not end with
a dot.  Appending `_x` plus two hex digits to such a string cannot create a
new stem/suffix split point. -/
def dotsOnlyHead (s : Chars) : Prop :=
  '.' ∉ s ∨ ∃ cs, s = '.' :: cs ∧ '.' ∉ cs

section StreamLemmas

theorem streamLoopAux_fst (cs fuel : Nat) (c1 c2 : Content) (hcs : 0 < cs)
    (hfuel : c1.length < fuel) :
    (streamLoopAux cs fuel c1 c2).1 = decide (c1 = c2) := by
  induction fuel generalizing c1 c2 with
  | zero => omega
  | succ fuel ih =>
      rw [streamLoopAux]
      split
      next hch =>
        have hne : c1 ≠ c2 := by
          intro h
          exact hch (by rw [h])
        simp [hne]
      next hch =>
        have hch' : c1.take cs = c2.take cs := not_not.mp hch
        split
        next hemp =>
          have h1 : c1 = [] := by
            rcases List.take_eq_nil_iff.mp (List.isEmpty_iff.mp hemp) with h | h
            · omega
            · exact h
          have h2 : c2 = [] := by
            rcases List.take_eq_nil_iff.mp (hch' ▸ List.isEmpty_iff.mp hemp) with h | h
            · omega
            · exact h
          simp [h1, h2]
        next hemp =>
          have hc1 : c1 ≠ [] := by
            intro h
            exact hemp (by simp [h])
          have hlen : (c1.drop cs).length < fuel := by
            have h1 : 0 < c1.length := List.length_pos.mpr hc1
            have h2 : (c1.drop cs).length = c1.length - cs := List.length_drop cs c1
            omega
          have hrec := ih (c1.drop cs) (c2.drop cs) hlen
          have hiff : (c1 = c2) ↔ (c1.drop cs = c2.drop cs) := by
            constructor
            · intro h
              rw [h]
            · intro h
              calc c1 = c1.take cs ++ c1.drop cs := (List.take_append_drop cs c1).symm
                _ = c2.take cs ++ c2.drop cs := by rw [hch', h]
                _ = c2 := List.take_append_drop cs c2
          simp only [hiff]
          exact hrec

theorem streamLoopAux_snd_pos (cs fuel : Nat) (c1 c2 : Content) (hfuel : 0 < fuel) :
    1 ≤ (streamLoopAux cs fuel c1 c2).2 := by
  cases fuel with
  | zero => omega
  | succ fuel =>
      rw [streamLoopAux]
      split
      · simp
      · split
        · simp
        · simp

theorem compare_stream_some (c1 c2 : Content) (cs : Nat) (hcs : 0 < cs) :
    compare_stream (some c1) (some c2) cs = decide (c1 = c2) :=
  streamLoopAux_fst cs (c1.length + 1) c1 c2 hcs (by omega)

end StreamLemmas

section DirLemmas

theorem dirLookup_map_update (d : DestDir) (n : Chars) (c : Content) (m : Chars)
    (hm : m ≠ n) :
    dirLookup (d.map fun e => if e.1 = n then (e.1, c) else e) m = dirLookup d m := by
  induction d with
  | nil => rfl
  | cons e es ih =>
      simp only [List.map_cons]
      by_cases hem : e.1 = m
      · have hen : ¬ e.1 = n := by
          rw [hem]
          exact hm
        rw [if_neg hen]
        unfold dirLookup
        rw [List.find?_cons_of_pos _ (by simp [hem]),
            List.find?_cons_of_pos _ (by simp [hem])]
      · by_cases hen : e.1 = n
        · unfold dirLookup
          rw [if_pos hen]
          rw [List.find?_cons_of_neg _ (by simp [hem]),
              List.find?_cons_of_neg _ (by simp [hem])]
          exact ih
        · rw [if_neg hen]
          unfold dirLookup
          rw [List.find?_cons_of_neg _ (by simp [hem]),
              List.find?_cons_of_neg _ (by simp [hem])]
          exact ih

theorem dirLookup_append_single (d : DestDir) (n : Chars) (c : Content) (m : Chars)
    (hm : m ≠ n) :
    dirLookup (d ++ [(n, c)]) m = dirLookup d m := by
  induction d with
  | nil =>
      unfold dirLookup
      rw [List.nil_append, List.find?_cons_of_neg _ (by simpa using Ne.symm hm)]
  | cons e es ih =>
      by_cases hem : e.1 = m
      · unfold dirLookup
        rw [List.cons_append, List.find?_cons_of_pos _ (by simp [hem]),
            List.find?_cons_of_pos _ (by simp [hem])]
      · unfold dirLookup
        rw [List.cons_append, List.find?_cons_of_neg _ (by simp [hem]),
            List.find?_cons_of_neg _ (by simp [hem])]
        exact ih

theorem dirWrite_lookup_ne (d : DestDir) (n : Chars) (c : Content) (m : Chars)
    (hm : m ≠ n) :
    dirLookup (dirWrite d n c) m = dirLookup d m := by
  rw [dirWrite]
  split
  · exact dirLookup_map_update d n c m hm
  · exact dirLookup_append_single d n c m hm

end DirLemmas

section RenameLemmas

theorem renameChain_shift (n : Chars) (k : Nat) :
    renameChain n (k + 1) = renameChain (renameChain n 1) k := by
  induction k with
  | zero => rfl
  | succ k ih =>
      show ((PhotoPath.from_path [] (renameChain n (k + 1))).next).name = _
      rw [ih]
      rfl

theorem renameLoop_exhaust (c : Content) (d : DestDir) (fp : Chars) (fuel : Nat)
    (hocc : ∀ k, k ≤ fuel → 1 ≤ k → (dirLookup d (renameChain fp k)).isSome = true) :
    renameLoop c d fp fuel = (CopyStatus.ERROR, none, some CopyExc.renameExhausted, d) := by
  induction fuel generalizing fp with
  | zero => rfl
  | succ fuel ih =>
      rw [renameLoop]
      rw [show ((PhotoPath.from_path [] fp).next).name = renameChain fp 1 from rfl]
      rw [if_pos (hocc 1 (by omega) (by omega))]
      refine ih (renameChain fp 1) fun k hk h1k => ?_
      rw [← renameChain_shift]
      exact hocc (k + 1) (by omega) (by omega)

theorem renameLoop_free (c : Content) (d : DestDir) (fp : Chars) (fuel : Nat)
    (hfree : (dirLookup d (renameChain fp 1)).isSome = false) :
    renameLoop c d fp (fuel + 1) =
      (CopyStatus.RENAMED, some (renameChain fp 1), none,
       dirWrite d (renameChain fp 1) c) := by
  rw [renameLoop]
  rw [show ((PhotoPath.from_path [] fp).next).name = renameChain fp 1 from rfl]
  rw [if_neg (by simp [hfree])]

end RenameLemmas

/-- C1 (amended): when the destination already holds the origin's bare name
with different content and every name probed by the rename loop — the chain
`renameChain A 1 … renameChain A 20`, which for a bare name `A` is
`A_x01 … A_x14`, i.e. 21 occupied slots counting `A` itself rather than the
20 the claim describes — is occupied, `_copy_file_task` returns the `ERROR`
outcome carrying the dedicated "Too many rename attempts" condition, distinct
from the caught I/O exception conditions, and the directory is unchanged
(nothing is copied). -/
theorem copy_file_task_rename_exhausted (A : Chars) (c c0 : Content) (d : DestDir)
    (h0 : dirLookup d A = some c0) (hne : c ≠ c0)
    (hocc : ∀ k, k ≤ 20 → 1 ≤ k → (dirLookup d (renameChain A k)).isSome = true) :
    copy_file_task A c d = (CopyStatus.ERROR, none, some CopyExc.renameExhausted, d)
    ∧ CopyExc.renameExhausted ≠ CopyExc.ioError := by
  refine ⟨?_, by decide⟩
  rw [copy_file_task]
  rw [if_neg (by simp [h0])]
  rw [h0, compare_stream_some c c0 8192 (by omega)]
  rw [if_neg (by simp [hne])]
  exact renameLoop_exhaust c d A MAX_RENAME_ALLOWED hocc

/-- Witness for C1: the concrete 21-slot directory `dir21` (`A.jpg` and
`A_x01.jpg` … `A_x14.jpg`, all with content `[1]`) makes the hypotheses of
`copy_file_task_rename_exhausted` hold for origin content `[0]`. -/
theorem copy_file_task_rename_exhausted_witness :
    copy_file_task nameA [0] dir21 =
      (CopyStatus.ERROR, none, some CopyExc.renameExhausted, dir21)
    ∧ CopyExc.renameExhausted ≠ CopyExc.ioError :=
  copy_file_task_rename_exhausted nameA [0] [1] dir21 (by decide) (by decide) (by decide)

/-- Counterexample to C1 as stated: with exactly the 20 occupied slots the
claim describes (`A.jpg` and `A_x01.jpg` … `A_x13.jpg`, all content-distinct
from the origin), `_copy_file_task` does NOT return the `ERROR` outcome — the
20th loop iteration finds `A_x14.jpg` free and returns `RENAMED` there. -/
theorem copy_file_task_twenty_slots_renamed :
    (copy_file_task nameA [0] dir20).1 = CopyStatus.RENAMED
    ∧ (copy_file_task nameA [0] dir20).2.1 = some (renameChain nameA 20)
    ∧ CopyStatus.RENAMED ≠ CopyStatus.ERROR := by
  decide

/-- C8: given an origin file `A` (bare name: its decomposition carries
counter 0) and a destination directory containing a different, non-identical
file also named `A`, with the counter-1 name free, `_copy_file_task` returns
`RENAMED` at the counter-1 name — `stem ++ "_x01" ++ suffix` — the
pre-existing destination entry `A` is unchanged, and no name other than the
counter-1 name is written. -/
theorem copy_file_task_renamed_counter_one (A : Chars) (c c0 : Content) (d : DestDir)
    (hbare : (PhotoPath.from_path [] A).counter = 0)
    (h0 : dirLookup d A = some c0) (hne : c ≠ c0)
    (hfree : (dirLookup d (renameChain A 1)).isSome = false) :
    copy_file_task A c d =
      (CopyStatus.RENAMED, some (renameChain A 1), none, dirWrite d (renameChain A 1) c)
    ∧ renameChain A 1 =
        (PhotoPath.from_path [] A).stem ++ ['_', 'x', '0', '1']
          ++ (PhotoPath.from_path [] A).suffix
    ∧ dirLookup (dirWrite d (renameChain A 1) c) A = some c0
    ∧ ∀ m, m ≠ renameChain A 1 →
        dirLookup (dirWrite d (renameChain A 1) c) m = dirLookup d m := by
  have hAne : A ≠ renameChain A 1 := by
    intro h
    rw [← h, h0] at hfree
    simp at hfree
  have hframe : ∀ m, m ≠ renameChain A 1 →
      dirLookup (dirWrite d (renameChain A 1) c) m = dirLookup d m :=
    fun m hm => dirWrite_lookup_ne d (renameChain A 1) c m hm
  refine ⟨?_, ?_, ?_, hframe⟩
  · rw [copy_file_task]
    rw [if_neg (by simp [h0])]
    rw [h0, compare_stream_some c c0 8192 (by omega)]
    rw [if_neg (by simp [hne])]
    exact renameLoop_free c d A 19 hfree
  · show ((PhotoPath.from_path [] A).next).name = _
    have hpad : pad2 (pyHex 1) = ['0', '1'] := by decide
    simp [PhotoPath.name, PhotoPath.next, hbare, hpad]
  · rw [hframe A hAne, h0]

/-- Witness for C8: origin `A.jpg` with content `[0]` against the concrete
directory `dirC8` holding `A.jpg` with content `[1]`. -/
theorem copy_file_task_renamed_counter_one_witness :
    copy_file_task nameA [0] dirC8 =
      (CopyStatus.RENAMED, some (renameChain nameA 1), none,
       dirWrite dirC8 (renameChain nameA 1) [0])
    ∧ renameChain nameA 1 =
        (PhotoPath.from_path [] nameA).stem ++ ['_', 'x', '0', '1']
          ++ (PhotoPath.from_path [] nameA).suffix
    ∧ dirLookup (dirWrite dirC8 (renameChain nameA 1) [0]) nameA = some [1]
    ∧ ∀ m, m ≠ renameChain nameA 1 →
        dirLookup (dirWrite dirC8 (renameChain nameA 1) [0]) m = dirLookup dirC8 m :=
  copy_file_task_renamed_counter_one nameA [0] [1] dirC8
    (by decide) (by decide) (by decide) (by decide)

/-- C5 (amended): when either file cannot be opened (`FileNotFoundError` /
`IOError`, modelled as a `none` file), `compare_stream` catches the exception,
prints an error message and returns a plain `False` — the same value as a
content mismatch, so the failure is NOT reported to the caller in a way
distinguishable from a non-match. -/
theorem compare_stream_failure_returns_false (f : Option Content) (cs : Nat) :
    compare_stream none f cs = false ∧ compare_stream f none cs = false := by
  cases f <;> exact ⟨rfl, rfl⟩

/-- Counterexample to C5 as stated: a comparison whose first file has
disappeared returns the plain `false` that a non-match also returns, so the
operation does not report failure distinguishably. -/
theorem compare_stream_failure_indistinguishable :
    compare_stream none (some [0]) 8192 = false
    ∧ compare_stream (some [0]) (some [1]) 8192 = false := by
  decide

/-- C6 (amended): for files of different sizes both comparison strategies do
return `false`, but only after opening and reading content — `compare_stream`
performs at least one chunk read on each file and `calculate_file_hash` reads
each file in full (at least one read call per file); neither function
performs a size pre-check. -/
theorem compare_different_sizes_reads_content (c1 c2 : Content) (cs : Nat)
    (hcs : 0 < cs) (hlen : c1.length ≠ c2.length) :
    compare_stream (some c1) (some c2) cs = false
    ∧ 1 ≤ compare_stream_reads (some c1) (some c2) cs
    ∧ compare_hash c1 c2 = false
    ∧ 1 ≤ hash_read_calls c1 ∧ 1 ≤ hash_read_calls c2 := by
  have hne : c1 ≠ c2 := fun h => hlen (by rw [h])
  refine ⟨?_, ?_, ?_, ?_, ?_⟩
  · rw [compare_stream_some c1 c2 cs hcs]
    simp [hne]
  · exact streamLoopAux_snd_pos cs (c1.length + 1) c1 c2 (by omega)
  · rw [compare_hash, calculate_file_hash, calculate_file_hash]
    exact beq_eq_false_iff_ne.mpr hne
  · simp [hash_read_calls]
  · simp [hash_read_calls]

/-- Witness for C6 (amended): concrete files of sizes 1 and 2. -/
theorem compare_different_sizes_reads_content_witness :
    compare_stream (some [0]) (some [0, 0]) 8192 = false
    ∧ 1 ≤ compare_stream_reads (some [0]) (some [0, 0]) 8192
    ∧ compare_hash [0] [0, 0] = false
    ∧ 1 ≤ hash_read_calls [0] ∧ 1 ≤ hash_read_calls [0, 0] :=
  compare_different_sizes_reads_content [0] [0, 0] 8192 (by decide) (by decide)

/-- Counterexample to C6 as stated: on a concrete pair of different-size
files, the comparison does read content (a positive number of reads), so it
does not return `false` "after only a size check, without opening or
reading". -/
theorem compare_size_mismatch_still_reads :
    compare_stream_reads (some [0]) (some [0, 0]) 8192 ≠ 0
    ∧ hash_read_calls [0] ≠ 0 := by
  decide

/-- C9 (amended): with zero archive directories configured, `find_idle`
emits the warning signal (`warnings.warn`, not a hard error) and returns
every hash group — all the duplicate groups `find_duplicates` would return,
but also every singleton group, so the result is a superset of, not exactly,
the duplicate groups. -/
theorem find_idle_no_archive (rows : HashRecords) :
    (find_idle rows []).1 = (hash_to_path rows).map Prod.snd
    ∧ (find_idle rows []).2 = true
    ∧ ∀ g ∈ find_duplicates rows, g ∈ (find_idle rows []).1 := by
  have h1 : (find_idle rows []).1 = (hash_to_path rows).map Prod.snd := by
    simp [find_idle]
  refine ⟨h1, rfl, ?_⟩
  intro g hg
  rw [h1]
  exact List.mem_of_mem_filter hg

/-- Counterexample to C9 as stated: on a single-record hash table the idle
groups are not exactly the duplicate groups — the singleton group is idle but
not a duplicate. -/
theorem find_idle_no_archive_not_exactly_duplicates :
    (find_idle [("p".data, "h".data)] []).1 ≠ find_duplicates [("p".data, "h".data)]
    ∧ (find_idle [("p".data, "h".data)] []).2 = true := by
  decide

section DiffLemmas

variable {α : Type} [DecidableEq α]

omit [DecidableEq α] in
theorem dkeys_map_fst_preserving (d : List (α × List α)) (f : α × List α → α × List α)
    (hf : ∀ e, (f e).1 = e.1) : dkeys (d.map f) = dkeys d := by
  rw [dkeys, dkeys, List.map_map]
  exact List.map_congr_left fun e _ => hf e

theorem mem_dkeys_dappend (d : List (α × List α)) (k v x : α)
    (hx : x ∈ dkeys (dappend d k v)) : x = k ∨ x ∈ dkeys d := by
  rw [dappend] at hx
  by_cases hany : (d.any fun e => decide (e.1 = k)) = true
  · rw [if_pos hany] at hx
    have hpres := dkeys_map_fst_preserving d
      (fun e => if e.1 = k then (e.1, e.2 ++ [v]) else e)
      (fun e => by by_cases h : e.1 = k <;> simp [h])
    rw [hpres] at hx
    exact Or.inr hx
  · rw [if_neg hany] at hx
    rw [dkeys, List.map_append] at hx
    rcases List.mem_append.mp hx with h | h
    · exact Or.inr h
    · simp at h
      exact Or.inl h

theorem dappend_not_mem (d : List (α × List α)) (k v : α) (h : k ∉ dkeys d) :
    dappend d k v = d ++ [(k, [v])] := by
  rw [dappend, if_neg]
  intro hany
  rcases List.any_eq_true.mp hany with ⟨e, he, hp⟩
  exact h (List.mem_map.mpr ⟨e, he, by simpa using hp.symm⟩)

theorem dappend_last (acc : List (α × List α)) (k : α) (l : List α) (v : α)
    (h : k ∉ dkeys acc) :
    dappend (acc ++ [(k, l)]) k v = acc ++ [(k, l ++ [v])] := by
  have hany : ((acc ++ [(k, l)]).any fun e => decide (e.1 = k)) = true := by
    rw [List.any_append]
    simp
  rw [dappend, if_pos hany, List.map_append]
  have hmap : (acc.map fun e => if e.1 = k then (e.1, e.2 ++ [v]) else e) = acc := by
    have : ∀ e ∈ acc, (fun e => if e.1 = k then (e.1, e.2 ++ [v]) else e) e = id e := by
      intro e he
      have hek : ¬ e.1 = k := by
        intro hek
        exact h (List.mem_map.mpr ⟨e, he, hek⟩)
      simp [hek]
    rw [List.map_congr_left this, List.map_id]
  rw [hmap]
  simp

theorem candLoop_skip (funs : List (α → α → Bool)) (p1 : α) (ps : List α)
    (hall : ∀ p2 ∈ ps, (funs.all fun f => f p1 p2) = false) :
    ∀ acc, candLoop funs p1 ps acc = acc := by
  induction ps with
  | nil => intro acc; rfl
  | cons p2 rest ih =>
      intro acc
      rw [candLoop, List.foldl_cons, if_neg (by simp [hall p2 (by simp)])]
      exact ih (fun q hq => hall q (by simp [hq])) acc

theorem candLoop_occupied (funs : List (α → α → Bool)) (k : α) (acc : List (α × List α))
    (h : k ∉ dkeys acc) :
    ∀ (ps : List α) (l0 : List α),
    candLoop funs k ps (acc ++ [(k, l0)]) = acc ++ [(k, l0 ++ candEntry funs k ps)] := by
  intro ps
  induction ps with
  | nil =>
      intro l0
      simp [candLoop, candEntry]
  | cons p2 rest ih =>
      intro l0
      rw [candLoop, List.foldl_cons]
      by_cases hp : (funs.all fun f => f k p2) = true
      · rw [if_pos hp, dappend_last acc k l0 p2 h]
        have hrec := ih (l0 ++ [p2])
        rw [candLoop] at hrec
        rw [hrec]
        simp [candEntry, List.filter_cons, hp]
      · rw [if_neg hp]
        have hrec := ih l0
        rw [candLoop] at hrec
        rw [hrec]
        simp [candEntry, List.filter_cons, hp]

theorem candLoop_fresh (funs : List (α → α → Bool)) (k : α) (ps : List α) :
    ∀ (acc : List (α × List α)), k ∉ dkeys acc →
    candLoop funs k ps acc =
      if candEntry funs k ps = [] then acc else acc ++ [(k, candEntry funs k ps)] := by
  induction ps with
  | nil =>
      intro acc _
      simp [candLoop, candEntry]
  | cons p2 rest ih =>
      intro acc hk
      rw [candLoop, List.foldl_cons]
      by_cases hp : (funs.all fun f => f k p2) = true
      · rw [if_pos hp, dappend_not_mem acc k p2 hk]
        have hrec := candLoop_occupied funs k acc hk rest [p2]
        rw [candLoop] at hrec
        rw [hrec]
        simp [candEntry, List.filter_cons, hp]
      · rw [if_neg hp]
        have hrec := ih acc hk
        rw [candLoop] at hrec
        rw [hrec]
        simp [candEntry, List.filter_cons, hp]

theorem candFold_spec (funs : List (α → α → Bool)) (paths2 : List α) :
    ∀ (paths1 : List α) (acc : List (α × List α)), paths1.Nodup →
    (∀ p ∈ paths1, p ∉ dkeys acc) →
    paths1.foldl (fun acc p1 => candLoop funs p1 paths2 acc) acc =
      acc ++ paths1.filterMap fun p1 =>
        if candEntry funs p1 paths2 = [] then none
        else some (p1, candEntry funs p1 paths2) := by
  intro paths1
  induction paths1 with
  | nil =>
      intro acc _ _
      simp
  | cons p1 rest ih =>
      intro acc hnd hdisj
      rw [List.foldl_cons]
      have hp1 : p1 ∉ dkeys acc := hdisj p1 (by simp)
      rw [candLoop_fresh funs p1 paths2 acc hp1]
      by_cases hE : candEntry funs p1 paths2 = []
      · rw [if_pos hE]
        rw [ih acc (List.nodup_cons.mp hnd).2 (fun p hp => hdisj p (by simp [hp]))]
        rw [List.filterMap_cons]
        simp [hE]
      · rw [if_neg hE]
        have hdisj2 : ∀ p ∈ rest, p ∉ dkeys (acc ++ [(p1, candEntry funs p1 paths2)]) := by
          intro p hp hmem
          rw [dkeys, List.map_append] at hmem
          rcases List.mem_append.mp hmem with h | h
          · exact hdisj p (by simp [hp]) h
          · simp at h
            exact (List.nodup_cons.mp hnd).1 (h ▸ hp)
        rw [ih (acc ++ [(p1, candEntry funs p1 paths2)]) (List.nodup_cons.mp hnd).2 hdisj2]
        rw [List.filterMap_cons]
        simp [hE]

theorem dkeys_candLoop_subset (funs : List (α → α → Bool)) (q : α) (ps : List α) :
    ∀ (acc : List (α × List α)), dkeys (candLoop funs q ps acc) ⊆ q :: dkeys acc := by
  induction ps with
  | nil =>
      intro acc x hx
      exact List.mem_cons_of_mem q hx
  | cons p2 rest ih =>
      intro acc
      rw [candLoop, List.foldl_cons]
      by_cases hp : (funs.all fun f => f q p2) = true
      · rw [if_pos hp]
        intro x hx
        have hx2 : x ∈ q :: dkeys (dappend acc q p2) := by
          have := ih (dappend acc q p2)
          rw [candLoop] at this
          exact this hx
        rcases List.mem_cons.mp hx2 with h | h
        · exact h ▸ List.mem_cons_self x _
        · rcases mem_dkeys_dappend acc q p2 x h with h' | h'
          · exact h' ▸ List.mem_cons_self x _
          · exact List.mem_cons_of_mem q h'
      · rw [if_neg hp]
        intro x hx
        have := ih acc
        rw [candLoop] at this
        exact this hx

theorem p1_not_mem_candFold (funs : List (α → α → Bool)) (paths2 : List α) (p1 : α)
    (hall : ∀ p2 ∈ paths2, (funs.all fun f => f p1 p2) = false) :
    ∀ (paths1 : List α) (acc : List (α × List α)), p1 ∉ dkeys acc →
    p1 ∉ dkeys (paths1.foldl (fun acc q => candLoop funs q paths2 acc) acc) := by
  intro paths1
  induction paths1 with
  | nil =>
      intro acc h
      simpa using h
  | cons q rest ih =>
      intro acc hacc
      rw [List.foldl_cons]
      apply ih
      by_cases hq : q = p1
      · rw [hq, candLoop_skip funs p1 paths2 hall acc]
        exact hacc
      · intro hmem
        rcases List.mem_cons.mp (dkeys_candLoop_subset funs q paths2 acc hmem) with h | h
        · exact hq h.symm
        · exact hacc h

theorem dlookup_eq_none (d : List (α × List α)) (k : α) (h : k ∉ dkeys d) :
    dlookup d k = none := by
  have hf : (d.find? fun e => decide (e.1 = k)) = none := by
    rw [List.find?_eq_none]
    intro e he hp
    exact h (List.mem_map.mpr ⟨e, he, by simpa using hp⟩)
  rw [dlookup, hf]
  rfl

theorem buildPairs_keyError (cands : List (α × List α)) (p1 : α) :
    ∀ l : List α, p1 ∈ l → dlookup cands p1 = none →
    buildPairs cands l = Except.error PyErr.keyError := by
  intro l
  induction l with
  | nil =>
      intro hmem _
      exact absurd hmem (List.not_mem_nil p1)
  | cons q rest ih =>
      intro hmem hnone
      rw [buildPairs]
      cases hq : dlookup cands q with
      | none => rfl
      | some lv =>
          have hqp : q ≠ p1 := by
            intro h
            rw [h, hnone] at hq
            cases hq
          have hrest : p1 ∈ rest := by
            rcases List.mem_cons.mp hmem with h | h
            · exact absurd h.symm hqp
            · exact h
          rw [ih hrest hnone]

theorem twinLoop_isOk (cmp : α → α → Except Unit Bool)
    (hcmp : ∀ a b, (cmp a b).isOk = true) (p1 : α) :
    ∀ (ps : List α) (acc : List (α × List α)), (twinLoop cmp p1 ps acc).isOk = true := by
  intro ps
  induction ps with
  | nil =>
      intro acc
      rfl
  | cons p2 rest ih =>
      intro acc
      rw [twinLoop]
      cases hc : cmp p1 p2 with
      | error e => exact Bool.noConfusion (hc ▸ hcmp p1 p2)
      | ok b => exact ih _

theorem twinOuter_isOk (cmp : α → α → Except Unit Bool)
    (hcmp : ∀ a b, (cmp a b).isOk = true) (ckeys : List α) :
    ∀ (l : List α) (acc : List (α × List α)), (twinOuter cmp ckeys l acc).isOk = true := by
  intro l
  induction l with
  | nil =>
      intro acc
      rfl
  | cons p1 rest ih =>
      intro acc
      rw [twinOuter]
      cases ht : twinLoop cmp p1 ckeys acc with
      | error e => exact Bool.noConfusion (ht ▸ twinLoop_isOk cmp hcmp p1 ckeys acc)
      | ok acc' => exact ih _

theorem gatherPar_compareError (cmp : α → α → Except Unit Bool) (p q : α)
    (herr : cmp p q = Except.error ()) :
    ∀ (pairs : List (α × α)) (acc : List (α × List α)), (p, q) ∈ pairs →
    gatherPar cmp pairs acc = Except.error PyErr.compareError := by
  intro pairs
  induction pairs with
  | nil =>
      intro acc h
      exact absurd h (List.not_mem_nil (p, q))
  | cons pr rest ih =>
      intro acc hmem
      obtain ⟨a, b⟩ := pr
      rw [gatherPar]
      cases hc : cmp a b with
      | error e => rfl
      | ok v =>
          have hrest : (p, q) ∈ rest := by
            rcases List.mem_cons.mp hmem with h | h
            · exfalso
              injection h with h1 h2
              rw [← h1, ← h2, herr] at hc
              cases hc
            · exact h
          exact ih _ hrest

end DiffLemmas

/-- C7 (amended): `find_candidates` maps each origin ref (over a
duplicate-free origin list) to the list of ALL destination refs passing every
filter predicate in the chain, in destination enumeration order — possibly
more than one, since the name-keyed destination index the source builds is
never consulted; origins with no passing destination are absent from the
mapping. -/
theorem find_candidates_spec {α : Type} [DecidableEq α] (paths1 paths2 : List α)
    (funs : List (α → α → Bool)) (h : paths1.Nodup) :
    find_candidates paths1 paths2 funs =
      paths1.filterMap fun p1 =>
        if candEntry funs p1 paths2 = [] then none
        else some (p1, candEntry funs p1 paths2) := by
  rw [find_candidates]
  simpa using candFold_spec funs paths2 paths1 [] h (by simp [dkeys])

/-- Witness for C7 (amended): origin `[0]`, destinations `[1, 2]`, a filter
chain accepting everything. -/
theorem find_candidates_spec_witness :
    find_candidates ([0] : List Nat) [1, 2] [oneFilter] =
      List.filterMap
        (fun p1 =>
          if candEntry [oneFilter] p1 [1, 2] = [] then none
          else some (p1, candEntry [oneFilter] p1 [1, 2]))
        [0] :=
  find_candidates_spec [0] [1, 2] [oneFilter] (by decide)

/-- Counterexample to C7 as stated: with two distinct destination refs both
passing the filter chain, `find_candidates` maps the origin to BOTH of them —
not to at most one candidate retained from a name-keyed index. -/
theorem find_candidates_not_at_most_one :
    find_candidates ([0] : List Nat) [1, 2] [oneFilter] = [(0, [1, 2])]
    ∧ ¬ ∀ e ∈ find_candidates ([0] : List Nat) [1, 2] [oneFilter], e.2.length ≤ 1 := by
  decide

/-- C3 (code bug): at the failing input — origins `[0]`, destinations `[1]`,
a filter chain accepting everything, comparator confirming equal refs — the
sequential `find_twins` iterates over the candidate dict's KEYS (`for p2 in
candidates` yields the origin paths), classifying the origin against itself
and returning `{0: [0]}`, while `find_twins_parallel` iterates
`candidates[p1]` (the destination refs) and returns `{}`: the two resolvers
do not produce identical TwinSet contents. -/
theorem find_twins_seq_vs_parallel_divergence :
    find_twins [oneFilter] [0] [1] true eqCmp = Except.ok [(0, [0])]
    ∧ find_twins_parallel [oneFilter] [0] [1] true eqCmp = Except.ok []
    ∧ find_twins [oneFilter] [0] [1] true eqCmp
        ≠ find_twins_parallel [oneFilter] [0] [1] true eqCmp := by
  decide

/-- C4 (amended): when the comparator raises for a pair that was submitted to
the pool, `find_twins_parallel` does not confine the failure to that pair —
`future.result()` re-raises the exception, the whole call aborts with it, and
no TwinSet classifying the sibling pairs is returned. -/
theorem find_twins_parallel_aborts_on_raise {α : Type} [DecidableEq α]
    (FF : List (α → α → Bool)) (paths1 paths2 : List α) (useFilter : Bool)
    (cmp : α → α → Except Unit Bool) (pairs : List (α × α)) (p1 p2 : α)
    (hpairs : buildPairs (candidatesFor FF paths1 paths2 useFilter) paths1 =
      Except.ok pairs)
    (hmem : (p1, p2) ∈ pairs) (herr : cmp p1 p2 = Except.error ()) :
    find_twins_parallel FF paths1 paths2 useFilter cmp =
      Except.error PyErr.compareError := by
  rw [find_twins_parallel]
  rw [hpairs]
  exact gatherPar_compareError cmp p1 p2 herr pairs [] hmem

/-- Witness for C4 (amended): one origin, two candidates, comparator raising
on candidate `2` only. -/
theorem find_twins_parallel_aborts_on_raise_witness :
    find_twins_parallel ([] : List (Nat → Nat → Bool)) [0] [1, 2] false cmpC4 =
      Except.error PyErr.compareError :=
  find_twins_parallel_aborts_on_raise [] [0] [1, 2] false cmpC4 [(0, 1), (0, 2)] 0 2
    (by decide) (by decide) (by decide)

/-- Counterexample to C4 as stated: with N = 2 pairs and a comparator raising
on exactly one of them, `find_twins_parallel` returns the propagated
exception, not a TwinSet in which the failing pair is excluded and the
remaining pair `(0, 1)` is classified. -/
theorem find_twins_parallel_raise_not_confined :
    find_twins_parallel ([] : List (Nat → Nat → Bool)) [0] [1, 2] false cmpC4 =
      Except.error PyErr.compareError
    ∧ find_twins_parallel ([] : List (Nat → Nat → Bool)) [0] [1, 2] false cmpC4
        ≠ Except.ok [(0, [1])] := by
  decide

/-- C10: for an origin `p1` for which no destination passes the module-level
filter chain, the candidate mapping has no key `p1`, so
`find_twins_parallel` raises `KeyError` while building the futures dict
(`candidates[p1]`); the sequential `find_twins` on the same inputs returns
normally (with a never-raising comparator) — the parallel resolver is partial
where the sequential one is total. -/
theorem find_twins_parallel_keyerror {α : Type} [DecidableEq α]
    (FF : List (α → α → Bool)) (paths1 paths2 : List α)
    (cmp : α → α → Except Unit Bool) (p1 : α)
    (hp : p1 ∈ paths1)
    (hnone : ∀ p2 ∈ paths2, (FF.all fun f => f p1 p2) = false)
    (hcmp : ∀ a b, (cmp a b).isOk = true) :
    find_twins_parallel FF paths1 paths2 true cmp = Except.error PyErr.keyError
    ∧ (find_twins FF paths1 paths2 true cmp).isOk = true := by
  have hkey : p1 ∉ dkeys (find_candidates paths1 paths2 FF) := by
    rw [find_candidates]
    exact p1_not_mem_candFold FF paths2 p1 hnone paths1 [] (by simp [dkeys])
  have hcand : candidatesFor FF paths1 paths2 true = find_candidates paths1 paths2 FF := by
    rw [candidatesFor, if_pos rfl]
  have hlook : dlookup (candidatesFor FF paths1 paths2 true) p1 = none := by
    rw [hcand]
    exact dlookup_eq_none _ p1 hkey
  constructor
  · rw [find_twins_parallel]
    rw [buildPairs_keyError (candidatesFor FF paths1 paths2 true) p1 paths1 hp hlook]
  · rw [find_twins]
    exact twinOuter_isOk cmp hcmp _ paths1 []

/-- Witness for C10: origin `[0]`, destination `[1]`, equality filter chain
(no destination passes), never-raising comparator. -/
theorem find_twins_parallel_keyerror_witness :
    find_twins_parallel [natEqFilter] [0] [1] true okCmp = Except.error PyErr.keyError
    ∧ (find_twins [natEqFilter] [0] [1] true okCmp).isOk = true :=
  find_twins_parallel_keyerror [natEqFilter] [0] [1] okCmp 0
    (by decide) (by decide) (fun a b => rfl)

section PhotoPathRoundtrip

theorem takeWhile_all {p : Char → Bool} (l : Chars) (h : ∀ x ∈ l, p x = true) :
    l.takeWhile p = l := by
  induction l with
  | nil => rfl
  | cons a l ih =>
      rw [List.takeWhile_cons, if_pos (h a (by simp))]
      rw [ih fun x hx => h x (by simp [hx])]

theorem takeWhile_all_append {p : Char → Bool} (xs : Chars) (y : Char) (ys : Chars)
    (hall : ∀ x ∈ xs, p x = true) (hy : p y = false) :
    (xs ++ y :: ys).takeWhile p = xs := by
  induction xs with
  | nil =>
      rw [List.nil_append, List.takeWhile_cons, if_neg (by simp [hy])]
  | cons a l ih =>
      rw [List.cons_append, List.takeWhile_cons, if_pos (hall a (by simp))]
      rw [ih fun x hx => hall x (by simp [hx])]

theorem pySplit_no_dot (name : Chars) (h : '.' ∉ name) : pySplit name = (name, []) := by
  have htw : name.reverse.takeWhile (fun c => !(c = '.' : Bool)) = name.reverse :=
    takeWhile_all _ fun x hx => by
      have hxd : x ≠ '.' := fun hx' => h (hx' ▸ List.mem_reverse.mp hx)
      simp [hxd]
  simp only [pySplit]
  rw [htw, List.length_reverse]
  rw [if_neg]
  intro hcond
  exact absurd hcond.1 (lt_irrefl _)

theorem pySplit_head_dot (cs : Chars) (h : '.' ∉ cs) :
    pySplit ('.' :: cs) = ('.' :: cs, []) := by
  have htw : ('.' :: cs).reverse.takeWhile (fun c => !(c = '.' : Bool)) = cs.reverse := by
    rw [List.reverse_cons]
    exact takeWhile_all_append _ _ _
      (fun x hx => by
        have hxd : x ≠ '.' := fun hx' => h (hx' ▸ List.mem_reverse.mp hx)
        simp [hxd])
      (by simp)
  simp only [pySplit]
  rw [htw]
  rw [if_neg]
  intro hcond
  obtain ⟨-, -, h3⟩ := hcond
  simp only [List.length_reverse, List.length_cons] at h3
  omega

theorem pySplit_with_ext (a rest : Chars) (ha : a ≠ []) (hrest : rest ≠ [])
    (hdot : '.' ∉ rest) :
    pySplit (a ++ '.' :: rest) = (a, '.' :: rest) := by
  have htw : (a ++ '.' :: rest).reverse.takeWhile (fun c => !(c = '.' : Bool))
      = rest.reverse := by
    rw [List.reverse_append, List.reverse_cons, List.append_assoc, List.singleton_append]
    exact takeWhile_all_append _ _ _
      (fun x hx => by
        have hxd : x ≠ '.' := fun hx' => hdot (hx' ▸ List.mem_reverse.mp hx)
        simp [hxd])
      (by simp)
  have hla : 0 < a.length := List.length_pos.mpr ha
  have hlr : 0 < rest.length := List.length_pos.mpr hrest
  simp only [pySplit]
  rw [htw]
  rw [if_pos (by
    simp only [List.length_reverse, List.length_append, List.length_cons]
    omega)]
  have harith : (a ++ '.' :: rest).length - 1 - rest.reverse.length = a.length := by
    simp only [List.length_reverse, List.length_append, List.length_cons]
    omega
  rw [harith, List.take_left, List.drop_left]

theorem dropWhile_head_false {p : Char → Bool} :
    ∀ (l : Chars) (d : Char) (dw : Chars), l.dropWhile p = d :: dw → p d = false := by
  intro l
  induction l with
  | nil =>
      intro d dw hcontra
      cases hcontra
  | cons a l ih =>
      intro d dw hdw
      rw [List.dropWhile_cons] at hdw
      by_cases hp : p a = true
      · rw [if_pos hp] at hdw
        exact ih d dw hdw
      · rw [if_neg hp] at hdw
        injection hdw with h1 _
        rw [← h1]
        exact Bool.eq_false_iff.mpr hp

theorem lastDot_decomp (name : Chars) :
    '.' ∉ name ∨ ∃ a rest, name = a ++ '.' :: rest ∧ '.' ∉ rest := by
  cases hdw : name.reverse.dropWhile (fun c => !(c = '.' : Bool)) with
  | nil =>
      left
      intro hmem
      have hall := List.dropWhile_eq_nil_iff.mp hdw '.' (List.mem_reverse.mpr hmem)
      simp at hall
  | cons d dw =>
      right
      have hd : (fun c => !(c = '.' : Bool)) d = false :=
        dropWhile_head_false name.reverse d dw hdw
      have hd' : d = '.' := by simpa using hd
      have hrev : name.reverse
          = name.reverse.takeWhile (fun c => !(c = '.' : Bool)) ++ '.' :: dw := by
        conv_lhs =>
          rw [← List.takeWhile_append_dropWhile (fun c => !(c = '.' : Bool)) name.reverse]
        rw [hdw, hd']
      refine ⟨dw.reverse, (name.reverse.takeWhile (fun c => !(c = '.' : Bool))).reverse,
        ?_, ?_⟩
      · calc name = name.reverse.reverse := (List.reverse_reverse name).symm
          _ = (name.reverse.takeWhile (fun c => !(c = '.' : Bool)) ++ '.' :: dw).reverse := by
              rw [← hrev]
          _ = dw.reverse ++ '.'
              :: (name.reverse.takeWhile (fun c => !(c = '.' : Bool))).reverse := by
              simp
      · intro hmem
        have hx := List.mem_takeWhile_imp (List.mem_reverse.mp hmem)
        simp at hx

theorem pySplit_cases (name : Chars) (h : name.getLast? ≠ some '.') :
    (pySplit name = (name, []) ∧ dotsOnlyHead name) ∨
    ∃ a rest, name = a ++ '.' :: rest ∧ a ≠ [] ∧ rest ≠ [] ∧ '.' ∉ rest ∧
      pySplit name = (a, '.' :: rest) := by
  rcases lastDot_decomp name with hnd | ⟨a, rest, hname, hdot⟩
  · exact Or.inl ⟨pySplit_no_dot name hnd, Or.inl hnd⟩
  · by_cases hrest : rest = []
    · exfalso
      apply h
      rw [hname, hrest]
      exact List.getLast?_concat a
    · by_cases ha : a = []
      · rw [ha, List.nil_append] at hname
        rw [hname]
        exact Or.inl ⟨pySplit_head_dot rest hdot, Or.inr ⟨rest, rfl, hdot⟩⟩
      · rw [hname]
        exact Or.inr ⟨a, rest, rfl, ha, hrest, hdot,
          pySplit_with_ext a rest ha hrest hdot⟩

theorem dotsOnlyHead_take (s : Chars) (m : Nat) (h : dotsOnlyHead s) :
    dotsOnlyHead (s.take m) := by
  rcases h with h | ⟨cs, rfl, hcs⟩
  · exact Or.inl fun hm => h (List.take_subset m s hm)
  · cases m with
    | zero => exact Or.inl (by simp)
    | succ m =>
        exact Or.inr ⟨cs.take m, by simp, fun hm => hcs (List.take_subset m cs hm)⟩

theorem pySplit_dotsOnlyHead_append (s l4 : Chars) (hd : dotsOnlyHead s)
    (hl4 : ∀ x ∈ l4, x ≠ '.') :
    pySplit (s ++ l4) = (s ++ l4, []) := by
  rcases hd with h | ⟨cs, rfl, hcs⟩
  · apply pySplit_no_dot
    intro hmem
    rcases List.mem_append.mp hmem with h' | h'
    · exact h h'
    · exact hl4 _ h' rfl
  · rw [List.cons_append]
    apply pySplit_head_dot
    intro hmem
    rcases List.mem_append.mp hmem with h' | h'
    · exact hcs h'
    · exact hl4 _ h' rfl

theorem hexVal_lt_16 (c : Char) (h : isHexDigitPC c = true) : hexVal c < 16 := by
  rw [isHexDigitPC] at h
  simp only [Bool.or_eq_true, Bool.and_eq_true, decide_eq_true_eq] at h
  rw [hexVal]
  rcases h with ⟨h1, h2⟩ | ⟨h1, h2⟩ <;> split <;> omega

theorem digitChar_isHex : ∀ v, v < 16 → isHexDigitPC (Nat.digitChar v) = true := by decide

theorem digitChar_hexVal : ∀ v, v < 16 → hexVal (Nat.digitChar v) = v := by decide

theorem digitChar_ne_dot : ∀ v, v < 16 → Nat.digitChar v ≠ '.' := by decide

theorem pyHexAux_small (fuel m : Nat) (h : m < 16) : pyHexAux fuel m = [Nat.digitChar m] := by
  cases fuel with
  | zero => rfl
  | succ f => rw [pyHexAux, if_pos h]

theorem pad2_pyHex (c : Nat) (hc : c < 256) :
    pad2 (pyHex c) = [Nat.digitChar (c / 16), Nat.digitChar (c % 16)] := by
  by_cases h16 : c < 16
  · rw [pyHex, pyHexAux_small c c h16, Nat.div_eq_of_lt h16, Nat.mod_eq_of_lt h16]
    rfl
  · obtain ⟨f, rfl⟩ : ∃ f, c = f + 1 := ⟨c - 1, by omega⟩
    rw [pyHex, pyHexAux, if_neg h16]
    rw [pyHexAux_small f ((f + 1) / 16) ((Nat.div_lt_iff_lt_mul (by omega)).mpr (by omega))]
    rw [pad2]
    simp

theorem hexSuffixMatch_eq (s : Chars) :
    hexSuffixMatch s =
      match s.reverse with
      | h2 :: h1 :: x :: u :: _ =>
          if u = '_' ∧ x = 'x' ∧ isHexDigitPC h1 ∧ isHexDigitPC h2 then some (h1, h2)
          else none
      | _ => none := rfl

theorem hexSuffixMatch_append (s : Chars) (d1 d2 : Char)
    (h1 : isHexDigitPC d1 = true) (h2 : isHexDigitPC d2 = true) :
    hexSuffixMatch (s ++ ['_', 'x', d1, d2]) = some (d1, d2) := by
  have hr : (s ++ ['_', 'x', d1, d2]).reverse = d2 :: d1 :: 'x' :: '_' :: s.reverse := by
    simp
  rw [hexSuffixMatch_eq, hr]
  simp [h1, h2]

theorem hexSuffixMatch_some (s : Chars) (h1 h2 : Char)
    (hm : hexSuffixMatch s = some (h1, h2)) :
    s.take (s.length - 4) ++ ['_', 'x', h1, h2] = s
    ∧ isHexDigitPC h1 = true ∧ isHexDigitPC h2 = true := by
  rw [hexSuffixMatch_eq] at hm
  rcases hr : s.reverse with _ | ⟨c4, t4⟩ <;> rw [hr] at hm
  · cases hm
  rcases t4 with _ | ⟨c3, t3⟩
  · cases hm
  rcases t3 with _ | ⟨c2, t2⟩
  · cases hm
  rcases t2 with _ | ⟨c1, t⟩
  · cases hm
  simp only [] at hm
  split_ifs at hm with hcond
  obtain ⟨hu, hx, hh3, hh4⟩ := hcond
  subst hu
  subst hx
  have hpair : c3 = h1 ∧ c4 = h2 := by simpa using hm
  obtain ⟨hc3, hc4⟩ := hpair
  subst hc3
  subst hc4
  have hs : s = t.reverse ++ ['_', 'x', c3, c4] := by
    rw [← List.reverse_reverse s, hr]
    simp
  refine ⟨?_, hh3, hh4⟩
  rw [hs]
  have hlen : (t.reverse ++ ['_', 'x', c3, c4]).length - 4 = t.reverse.length := by
    simp
  rw [hlen, List.take_left]

theorem from_path_eq (parent name : Chars) :
    PhotoPath.from_path parent name =
      match hexSuffixMatch (pySplit name).1 with
      | some (h1, h2) =>
          { parent := parent,
            stem := (pySplit name).1.take ((pySplit name).1.length - 4),
            suffix := (pySplit name).2, counter := 16 * hexVal h1 + hexVal h2 }
      | none =>
          { parent := parent, stem := (pySplit name).1, suffix := (pySplit name).2,
            counter := 0 } := rfl

theorem from_path_encode (parent stem1 suf0 : Chars) (c : Nat) (hc : c < 256)
    (hsuf : (suf0 = [] ∧ dotsOnlyHead stem1) ∨
            ∃ rest, suf0 = '.' :: rest ∧ rest ≠ [] ∧ '.' ∉ rest) :
    PhotoPath.from_path parent (stem1 ++ ['_', 'x'] ++ pad2 (pyHex c) ++ suf0) =
      { parent := parent, stem := stem1, suffix := suf0, counter := c } := by
  have hd1 : c / 16 < 16 := (Nat.div_lt_iff_lt_mul (by omega)).mpr (by omega)
  have hd2 : c % 16 < 16 := Nat.mod_lt c (by omega)
  have henc : stem1 ++ ['_', 'x'] ++ pad2 (pyHex c) ++ suf0
      = (stem1 ++ ['_', 'x', Nat.digitChar (c / 16), Nat.digitChar (c % 16)]) ++ suf0 := by
    rw [pad2_pyHex c hc]
    simp
  rw [henc]
  have hl4 : ∀ x ∈ ['_', 'x', Nat.digitChar (c / 16), Nat.digitChar (c % 16)], x ≠ '.' := by
    intro x hx
    simp only [List.mem_cons, List.not_mem_nil, or_false] at hx
    rcases hx with rfl | rfl | rfl | rfl
    · decide
    · decide
    · exact digitChar_ne_dot _ hd1
    · exact digitChar_ne_dot _ hd2
  have hsplit : pySplit ((stem1 ++ ['_', 'x', Nat.digitChar (c / 16),
      Nat.digitChar (c % 16)]) ++ suf0)
      = (stem1 ++ ['_', 'x', Nat.digitChar (c / 16), Nat.digitChar (c % 16)], suf0) := by
    rcases hsuf with ⟨rfl, hdots⟩ | ⟨rest, rfl, hrest, hdot⟩
    · rw [List.append_nil]
      exact pySplit_dotsOnlyHead_append stem1 _ hdots hl4
    · exact pySplit_with_ext _ rest (by simp) hrest hdot
  rw [from_path_eq]
  simp only [hsplit]
  rw [hexSuffixMatch_append stem1 _ _ (digitChar_isHex _ hd1) (digitChar_isHex _ hd2)]
  have hstem : (stem1 ++ ['_', 'x', Nat.digitChar (c / 16), Nat.digitChar (c % 16)]).take
      ((stem1 ++ ['_', 'x', Nat.digitChar (c / 16), Nat.digitChar (c % 16)]).length - 4)
      = stem1 := by
    have hlen : (stem1 ++ ['_', 'x', Nat.digitChar (c / 16),
        Nat.digitChar (c % 16)]).length - 4 = stem1.length := by
      simp
    rw [hlen, List.take_left]
  have hcnt : 16 * hexVal (Nat.digitChar (c / 16)) + hexVal (Nat.digitChar (c % 16)) = c := by
    rw [digitChar_hexVal _ hd1, digitChar_hexVal _ hd2]
    exact Nat.div_add_mod c 16
  simp only [hstem, hcnt]

/-- C2 (amended): for every path whose file name does not end with a dot,
decomposing, re-encoding through `PhotoPath.name` and decomposing again
reproduces the same `(stem, counter)` pair.  (For names ending with `.` —
pathlib then reports an empty suffix — the appended `_x..` token shifts the
stem/suffix split point and the round-trip fails; see the counterexample.) -/
theorem photoPath_roundtrip (parent name : Chars) (h : name.getLast? ≠ some '.') :
    (PhotoPath.from_path parent ((PhotoPath.from_path parent name).name)).stem
      = (PhotoPath.from_path parent name).stem
    ∧ (PhotoPath.from_path parent ((PhotoPath.from_path parent name).name)).counter
      = (PhotoPath.from_path parent name).counter := by
  rcases pySplit_cases name h with ⟨hsplit, hdots⟩ | ⟨a, rest, hname, ha, hrest, hdot, hsplit⟩
  · cases hm : hexSuffixMatch name with
    | none =>
        have hp : PhotoPath.from_path parent name
            = { parent := parent, stem := name, suffix := [], counter := 0 } := by
          rw [from_path_eq]
          simp only [hsplit]
          rw [hm]
        have hn : PhotoPath.name
            { parent := parent, stem := name, suffix := [], counter := 0 }
            = name ++ ['_', 'x'] ++ pad2 (pyHex 0) ++ [] := rfl
        rw [hp, hn]
        rw [from_path_encode parent name [] 0 (by omega) (Or.inl ⟨rfl, hdots⟩)]
        exact ⟨rfl, rfl⟩
    | some pr =>
        obtain ⟨h1, h2⟩ := pr
        obtain ⟨hdecomp, hh1, hh2⟩ := hexSuffixMatch_some name h1 h2 hm
        have hc : 16 * hexVal h1 + hexVal h2 < 256 := by
          have hb1 := hexVal_lt_16 h1 hh1
          have hb2 := hexVal_lt_16 h2 hh2
          omega
        have hp : PhotoPath.from_path parent name
            = { parent := parent, stem := name.take (name.length - 4), suffix := [],
                counter := 16 * hexVal h1 + hexVal h2 } := by
          rw [from_path_eq]
          simp only [hsplit]
          rw [hm]
        have hn : PhotoPath.name
            { parent := parent, stem := name.take (name.length - 4), suffix := [],
              counter := 16 * hexVal h1 + hexVal h2 }
            = name.take (name.length - 4) ++ ['_', 'x']
              ++ pad2 (pyHex (16 * hexVal h1 + hexVal h2)) ++ [] := rfl
        rw [hp, hn]
        rw [from_path_encode parent (name.take (name.length - 4)) []
          (16 * hexVal h1 + hexVal h2) hc
          (Or.inl ⟨rfl, dotsOnlyHead_take name (name.length - 4) hdots⟩)]
        exact ⟨rfl, rfl⟩
  · cases hm : hexSuffixMatch a with
    | none =>
        have hp : PhotoPath.from_path parent name
            = { parent := parent, stem := a, suffix := '.' :: rest, counter := 0 } := by
          rw [from_path_eq]
          simp only [hsplit]
          rw [hm]
        have hn : PhotoPath.name
            { parent := parent, stem := a, suffix := '.' :: rest, counter := 0 }
            = a ++ ['_', 'x'] ++ pad2 (pyHex 0) ++ ('.' :: rest) := rfl
        rw [hp, hn]
        rw [from_path_encode parent a ('.' :: rest) 0 (by omega)
          (Or.inr ⟨rest, rfl, hrest, hdot⟩)]
        exact ⟨rfl, rfl⟩
    | some pr =>
        obtain ⟨h1, h2⟩ := pr
        obtain ⟨hdecomp, hh1, hh2⟩ := hexSuffixMatch_some a h1 h2 hm
        have hc : 16 * hexVal h1 + hexVal h2 < 256 := by
          have hb1 := hexVal_lt_16 h1 hh1
          have hb2 := hexVal_lt_16 h2 hh2
          omega
        have hp : PhotoPath.from_path parent name
            = { parent := parent, stem := a.take (a.length - 4), suffix := '.' :: rest,
                counter := 16 * hexVal h1 + hexVal h2 } := by
          rw [from_path_eq]
          simp only [hsplit]
          rw [hm]
        have hn : PhotoPath.name
            { parent := parent, stem := a.take (a.length - 4), suffix := '.' :: rest,
              counter := 16 * hexVal h1 + hexVal h2 }
            = a.take (a.length - 4) ++ ['_', 'x']
              ++ pad2 (pyHex (16 * hexVal h1 + hexVal h2)) ++ ('.' :: rest) := rfl
        rw [hp, hn]
        rw [from_path_encode parent (a.take (a.length - 4)) ('.' :: rest)
          (16 * hexVal h1 + hexVal h2) hc (Or.inr ⟨rest, rfl, hrest, hdot⟩)]
        exact ⟨rfl, rfl⟩

end PhotoPathRoundtrip

/-- Witness for C2 (amended): the round-trip on the concrete file name
`IMG_0001_x02.jpg`, which does not end with a dot. -/
theorem photoPath_roundtrip_witness :
    (PhotoPath.from_path [] ((PhotoPath.from_path [] ("IMG_0001_x02.jpg".data)).name)).stem
      = (PhotoPath.from_path [] ("IMG_0001_x02.jpg".data)).stem
    ∧ (PhotoPath.from_path [] ((PhotoPath.from_path [] ("IMG_0001_x02.jpg".data)).name)).counter
      = (PhotoPath.from_path [] ("IMG_0001_x02.jpg".data)).counter :=
  photoPath_roundtrip [] ("IMG_0001_x02.jpg".data) (by decide)

/-- Counterexample to C2 as stated: the file name `a.` (pathlib stem `a.`,
empty suffix, counter 0) re-encodes to `a._x00`, which pathlib re-parses with
stem `a` and suffix `._x00`, so the second decomposition loses the trailing
dot of the stem: the round-trip does not reproduce the `(stem, counter)` pair
for every path. -/
theorem photoPath_roundtrip_fails_on_trailing_dot :
    ¬ ((PhotoPath.from_path [] ((PhotoPath.from_path [] ("a.".data)).name)).stem
        = (PhotoPath.from_path [] ("a.".data)).stem
      ∧ (PhotoPath.from_path [] ((PhotoPath.from_path [] ("a.".data)).name)).counter
        = (PhotoPath.from_path [] ("a.".data)).counter) := by
  decide
